import Mathlib

/-!
Verification of the crewAI excerpt: knowledge-source chunking, the cache
lookup tool, the prompt builder, the document-saving helper, and (modelled
from the spec, since `crewai/utilities/converter.py` is absent from the
excerpt) the text-to-model converter utilities.

Python strings are embedded as `List Char`; fallible Python code returns
`Except PyErr`.  `findSplit`/`pySplit` model `str.split(sep)` for a
non-empty separator (leftmost, non-overlapping occurrences), `joinSep`
models `sep.join(parts)`, `pyReplace` models `str.replace` through the
standard identity `s.replace(a, b) == b.join(s.split(a))`, `pyStrip`
models `str.strip()` on ASCII whitespace, and `pyRangeUp` models
`range(0, stop, step)` for a positive step.
-/

/-- Python exceptions raised by the embedded code, with their messages. -/
inductive PyErr where
  | valueError (msg : String)
  | indexError (msg : String)
deriving DecidableEq, Repr

instance {ε α : Type} [DecidableEq ε] [DecidableEq α] : DecidableEq (Except ε α) := fun x y =>
  match x, y with
  | .ok a, .ok b =>
    if h : a = b then .isTrue (by rw [h]) else .isFalse (fun hc => h (Except.ok.inj hc))
  | .error a, .error b =>
    if h : a = b then .isTrue (by rw [h]) else .isFalse (fun hc => h (Except.error.inj hc))
  | .ok _, .error _ => .isFalse (fun hc => Except.noConfusion hc)
  | .error _, .ok _ => .isFalse (fun hc => Except.noConfusion hc)

/-- Python list indexing `l[n]` for a non-negative index: raises `IndexError`
when the index is out of range. -/
def pyGet {α : Type} (l : List α) (n : Nat) : Except PyErr α :=
  match l.get? n with
  | some a => .ok a
  | none => .error (.indexError ("list index out of range"))

/-- Locate the leftmost occurrence of `sep` in `s`: returns
`some (pre, post)` with `s = pre ++ sep ++ post` and no occurrence of `sep`
starting inside `pre`, or `none` when `sep` does not occur.  (Only used
with non-empty separators, as in Python, where `split('')` is an error.) -/
def findSplit (sep : List Char) : List Char → Option (List Char × List Char)
  | [] => none
  | c :: rest =>
    if sep.isPrefixOf (c :: rest) then some ([], (c :: rest).drop sep.length)
    else
      match findSplit sep rest with
      | some (pre, post) => some (c :: pre, post)
      | none => none

/-- Fueled worker for `pySplit`; `s.length` fuel always suffices because
every split removes at least one character. -/
def pySplitGo (sep : List Char) : Nat → List Char → List (List Char)
  | 0, s => [s]
  | fuel + 1, s =>
    match findSplit sep s with
    | none => [s]
    | some (pre, post) => pre :: pySplitGo sep fuel post

/-- Python `s.split(sep)` for a non-empty separator `sep`. -/
def pySplit (sep s : List Char) : List (List Char) :=
  pySplitGo sep s.length s

/-- Python `sep.join(parts)`. -/
def joinSep (sep : List Char) : List (List Char) → List Char
  | [] => []
  | [x] => x
  | x :: y :: xs => x ++ sep ++ joinSep sep (y :: xs)

/-- Python `s.replace(pat, rep)` for a non-empty pattern, through the
identity `s.replace(pat, rep) == rep.join(s.split(pat))`. -/
def pyReplace (pat rep s : List Char) : List Char :=
  joinSep rep (pySplit pat s)

/-- The ASCII whitespace characters stripped by Python `str.strip()`. -/
def pyWs (c : Char) : Bool :=
  c = ' ' || c = '\t' || c = '\n' || c = '\r' || c = '\x0b' || c = '\x0c'

/-- Python `s.strip()`: remove leading and trailing whitespace. -/
def pyStrip (s : List Char) : List Char :=
  (((s.dropWhile pyWs).reverse.dropWhile pyWs).reverse)

/-- Fueled worker for `pyRangeUp`; `stop` fuel always suffices because the
index advances by at least one per element. -/
def pyRangeGo (stop s1 : Nat) : Nat → Nat → List Nat
  | 0, _ => []
  | fuel + 1, start => if start < stop then start :: pyRangeGo stop s1 fuel (start + s1 + 1) else []

/-- Python `range(0, stop, s1 + 1)`: the indices `0, s1+1, 2*(s1+1), ...`
below `stop`. -/
def pyRangeUp (stop s1 : Nat) : List Nat :=
  pyRangeGo stop s1 stop 0

/-- `ceilDiv n s` is `ceil(n / s)` for `s > 0`, written `(n + s - 1) / s`. -/
def ceilDiv (n s : Nat) : Nat :=
  (n + s - 1) / s

/-- The list comprehension inside `BaseKnowledgeSource._chunk_text`
(`src/crewai/knowledge/source/base_knowledge_source.py`):
`[text[i : i + chunk_size] for i in range(0, len(text), chunk_size - chunk_overlap)]`,
in the case where the step `chunk_size - chunk_overlap` is positive. -/
def chunkList (chunk_size chunk_overlap : Nat) (text : List Char) : List (List Char) :=
  (pyRangeUp text.length (chunk_size - chunk_overlap - 1)).map
    (fun i => (text.drop i).take chunk_size)

/-- `BaseKnowledgeSource._chunk_text`.  The Python step is the (possibly
non-positive) integer `chunk_size - chunk_overlap`: a zero step makes
`range` raise `ValueError`, a negative step makes `range(0, len(text), step)`
empty, and a positive step yields the overlapping windows of `chunkList`. -/
def chunk_text (chunk_size chunk_overlap : Nat) (text : List Char) : Except PyErr (List (List Char)) :=
  if chunk_size = chunk_overlap then
    .error (.valueError ("range() arg 3 must not be zero"))
  else if chunk_size < chunk_overlap then
    .ok []
  else
    .ok (chunkList chunk_size chunk_overlap text)

/-- `BaseKnowledgeSource._save_documents`: `storage.save(chunks)` when a
storage collaborator is present (an existing `KnowledgeStorage` object is
always truthy), else `ValueError`.  `save` abstracts the external
`KnowledgeStorage.save` method. -/
def save_documents {σ ρ : Type} (storage : Option σ) (save : σ → List (List Char) → ρ)
    (chunks : List (List Char)) : Except PyErr ρ :=
  match storage with
  | some st => .ok (save st chunks)
  | none => .error (.valueError ("No storage found to save documents."))

/-- The literal `"tool:"` delimiter of `CacheTools.hit_cache`. -/
def toolSep : List Char := 't' :: ("ool:").toList

/-- The literal `"|input:"` delimiter of `CacheTools.hit_cache`. -/
def inputSep : List Char := '|' :: ("input:").toList

/-- `CacheTools.hit_cache` (`src/crewai/tools/cache_tools/cache_tools.py`):
`split = key.split("tool:")`; `tool = split[1].split("|input:")[0].strip()`;
`tool_input = split[1].split("|input:")[1].strip()`;
`return self.cache_handler.read(tool, tool_input)`.  `read` abstracts the
external `CacheHandler.read`; indexing errors propagate as `IndexError`. -/
def hit_cache {α : Type} (read : List Char → List Char → α) (key : List Char) : Except PyErr α :=
  match pyGet (pySplit toolSep key) 1 with
  | .error e => .error e
  | .ok s1 =>
    match pyGet (pySplit inputSep s1) 0 with
    | .error e => .error e
    | .ok t0 =>
      match pyGet (pySplit inputSep s1) 1 with
      | .error e => .error e
      | .ok i1 => .ok (read (pyStrip t0) (pyStrip i1))

/-- The `"\x7bgoal\x7d"` placeholder of `Prompts._build_prompt`. -/
def goalPh : List Char := '\x7b' :: ("goal\x7d").toList

/-- The `"\x7brole\x7d"` placeholder of `Prompts._build_prompt`. -/
def rolePh : List Char := '\x7b' :: ("role\x7d").toList

/-- The `"\x7bbackstory\x7d"` placeholder of `Prompts._build_prompt`. -/
def backstoryPh : List Char := '\x7b' :: ("backstory\x7d").toList

/-- The `"\x7b\x7b .System \x7d\x7d"` marker of `Prompts._build_prompt`. -/
def systemPh : List Char := '\x7b' :: ("\x7b .System \x7d\x7d").toList

/-- The `"\x7b\x7b .Prompt \x7d\x7d"` marker of `Prompts._build_prompt`. -/
def promptPh : List Char := '\x7b' :: ("\x7b .Prompt \x7d\x7d").toList

/-- The `"\x7b\x7b .Response \x7d\x7d"` marker of `Prompts._build_prompt`. -/
def responsePh : List Char := '\x7b' :: ("\x7b .Response \x7d\x7d").toList

/-- Python truthiness of an `Optional[str]`: `None` and `""` are falsy. -/
def truthyS : Option (List Char) → Bool
  | none => false
  | some s => !s.isEmpty

/-- The inputs of `Prompts._build_prompt` (`src/crewai/utilities/prompts.py`):
the `i18n.slice` lookup, the requested components, the three optional
templates, and the agent's `goal`, `role` and `backstory` fields. -/
structure PromptArgs where
  slices : String → List Char
  components : List String
  system_template : Option (List Char)
  prompt_template : Option (List Char)
  response_template : Option (List Char)
  goal : List Char
  role : List Char
  backstory : List Char

/-- The template-assembly portion of `Prompts._build_prompt`: everything the
method computes before the final `{goal}` / `{role}` / `{backstory}`
substitutions.  With a missing (or empty, hence falsy) system or prompt
template the slices are concatenated; otherwise the templates are used and
the `{{ .System }}` / `{{ .Prompt }}` / `{{ .Response }}` markers are
resolved, joining the pieces with newlines. -/
def assembleTemplate (a : PromptArgs) : List Char :=
  if !(truthyS a.system_template) || !(truthyS a.prompt_template) then
    List.flatten (a.components.map a.slices)
  else
    let parts := List.flatten ((a.components.filter (fun comp => comp != "task")).map a.slices)
    let system := pyReplace systemPh parts (a.system_template.getD [])
    let prompt := pyReplace promptPh (a.slices ("task")) (a.prompt_template.getD [])
    if truthyS a.response_template then
      let response := (pySplit responsePh (a.response_template.getD [])).headD []
      system ++ '\n' :: (prompt ++ '\n' :: response)
    else
      system ++ '\n' :: prompt

/-- `Prompts._build_prompt`: assemble the template, then apply
`.replace("\x7bgoal\x7d", goal).replace("\x7brole\x7d", role).replace("\x7bbackstory\x7d", backstory)`
and return the result. -/
def build_prompt (a : PromptArgs) : List Char :=
  pyReplace backstoryPh a.backstory
    (pyReplace rolePh a.role
      (pyReplace goalPh a.goal (assembleTemplate a)))

/-- Modelled from the spec: the `ConverterError` raised by
`Converter.to_pydantic` (`crewai/utilities/converter.py` is absent from the
excerpt).  Per spec section 7, exhausting the retry budget raises "an
explicit conversion error containing the last raw model output", so the
error carries its message and the last attempt's raw completion text. -/
structure ConverterError where
  message : String
  lastOutput : Option String
deriving DecidableEq, Repr

/-- Modelled from the spec: the retry loop of `Converter.to_pydantic`
(`crewai/utilities/converter.py` is absent from the excerpt).  Per spec
section 4.1, each attempt issues one completion call, tries strict schema
parsing, then the lenient extract-first-JSON-substring fallback, and moves
to the next attempt on failure; exhausting the budget raises a
`ConverterError` carrying the last raw output.  `call i` is the raw text of
the `i`-th completion call, `fuel` the remaining attempts, `last` the
previous attempt's raw output. -/
def convAttempts {M : Type} (strict lenient : String → Option M) (call : Nat → String) :
    Nat → Nat → Option String → Except ConverterError M
  | 0, _, last => .error ⟨"Failed to convert text into a Pydantic model.", last⟩
  | fuel + 1, i, _ =>
    match strict (call i) with
    | some m => .ok m
    | none =>
      match lenient (call i) with
      | some m => .ok m
      | none => convAttempts strict lenient call fuel (i + 1) (some (call i))

/-- Modelled from the spec: `Converter.to_pydantic`
(`crewai/utilities/converter.py` is absent from the excerpt).  Per spec
section 4.1: when the LLM supports native structured output the call is
delegated to the instructor-style mechanism (abstracted as `native`);
otherwise the bounded retry loop of `convAttempts` runs for `max_attempts`
attempts. -/
def to_pydantic {M : Type} (supportsFC : Bool) (native : Except ConverterError M)
    (strict lenient : String → Option M) (call : Nat → String) (max_attempts : Nat) :
    Except ConverterError M :=
  if supportsFC then native
  else convAttempts strict lenient call max_attempts 0 none

/-- Modelled from the spec: the Python field-type annotations whose rendering
`generate_model_description` documents (`crewai/utilities/converter.py` is
absent from the excerpt; spec section 8: "Optional/List/Dict/Union/Enum
fields serialize to their literal documented string forms"). -/
inductive PyFieldType where
  | strT
  | intT
  | noneT
  | optionalT (t : PyFieldType)
  | listT (t : PyFieldType)
  | dictT (k v : PyFieldType)
  | unionT (ts : List PyFieldType)

mutual

/-- Modelled from the spec: the literal documented string form of one field
type, as pinned by the `generate_model_description` unit tests. -/
def describeType : PyFieldType → String
  | .strT => "str"
  | .intT => "int"
  | .noneT => "None"
  | .optionalT t => "Optional[" ++ describeType t ++ "]"
  | .listT t => "List[" ++ describeType t ++ "]"
  | .dictT k v => "Dict[" ++ describeType k ++ ", " ++ describeType v ++ "]"
  | .unionT ts => describeUnion ts

/-- Modelled from the spec: the `" | "`-separated rendering of a union's
member types. -/
def describeUnion : List PyFieldType → String
  | [] => ""
  | [t] => describeType t
  | t :: u :: ts => describeType t ++ " | " ++ describeUnion (u :: ts)

end

/-- Modelled from the spec: `generate_model_description`
(`crewai/utilities/converter.py` is absent from the excerpt).  Per its unit
tests, the schema description is a braces-style listing of
`"name": type` lines. -/
def generate_model_description (fields : List (String × PyFieldType)) : String :=
  "\x7b\n"
    ++ String.intercalate ",\n"
        (fields.map (fun f => "  \"" ++ f.1 ++ "\": " ++ describeType f.2))
    ++ "\n\x7d"

/-- Modelled from the spec: the outcome of `convert_to_model`
(`crewai/utilities/converter.py` is absent from the excerpt): either the
unchanged free text or a structured model instance. -/
inductive ConvOut (M : Type) where
  | text (s : String)
  | model (m : M)
deriving DecidableEq, Repr

/-- Modelled from the spec: the observable effects of one `convert_to_model`
call — how many LLM completion calls were made, how many parse attempts
were tried, and whether an error was raised. -/
structure ConvEffects where
  llmCalls : Nat
  parseAttempts : Nat
  raisedError : Bool
deriving DecidableEq, Repr

/-- Modelled from the spec: `convert_to_model`
(`crewai/utilities/converter.py` is absent from the excerpt; only its unit
tests are).  With no target model the input text is returned unchanged with
no parsing, no LLM call and no error; with a target model, strict parsing
is attempted and failures are handed to the `handle_partial_json`
fallback (abstracted as `fallback`, with its own effects). -/
def convert_to_model {M : Type} (text : String) (strictOfModel : Option (String → Option M))
    (fallback : String → ConvOut M × ConvEffects) : ConvOut M × ConvEffects :=
  match strictOfModel with
  | none => (.text text, ⟨0, 0, false⟩)
  | some strict =>
    match strict text with
    | some m => (.model m, ⟨0, 1, false⟩)
    | none =>
      match fallback text with
      | (o, e) => (o, ⟨e.llmCalls, e.parseAttempts + 1, e.raisedError⟩)

/-- `overlapsBy k a b`: the last `k` characters of `a` equal the first `k`
characters of `b` (and both chunks have at least `k` characters), i.e. the
adjacent chunks `a`, `b` overlap by exactly `k` characters. -/
def overlapsBy (k : Nat) (a b : List Char) : Prop :=
  k ≤ a.length ∧ k ≤ b.length ∧ a.drop (a.length - k) = b.take k

instance (k : Nat) (a b : List Char) : Decidable (overlapsBy k a b) := by
  unfold overlapsBy
  exact inferInstance

/-- The last element of a chunk list (`[]` for an empty list). -/
def lastD : List (List Char) → List Char
  | [] => []
  | [x] => x
  | _ :: y :: xs => lastD (y :: xs)

/-- Concatenate every chunk except the last truncated to its first `stride`
characters, followed by the last chunk in full. -/
def reconstruct (stride : Nat) (cs : List (List Char)) : List Char :=
  List.flatten (cs.dropLast.map (fun c => c.take stride)) ++ lastD cs

/-! ### Prefix / suffix / infix helpers -/

theorem pref_length {p l : List Char} (h : p <+: l) : p.length ≤ l.length := by
  obtain ⟨t, rfl⟩ := h
  simp [List.length_append]

theorem pref_infx {p l : List Char} (h : p <+: l) : p <:+: l := by
  obtain ⟨t, rfl⟩ := h
  exact ⟨[], t, by simp⟩

theorem suff_infx {p l : List Char} (h : p <:+ l) : p <:+: l := by
  obtain ⟨t, rfl⟩ := h
  exact ⟨t, [], by simp⟩

theorem infx_cons_of {p l : List Char} (a : Char) (h : p <:+: l) : p <:+: a :: l := by
  obtain ⟨u, v, rfl⟩ := h
  exact ⟨a :: u, v, by simp⟩

theorem suff_cons_of {p l : List Char} (a : Char) (h : p <:+ l) : p <:+ a :: l := by
  obtain ⟨t, rfl⟩ := h
  exact ⟨a :: t, by simp⟩

theorem infx_rfl {l : List Char} : l <:+: l :=
  ⟨[], [], by simp⟩

theorem pref_iff_take {p l : List Char} : p <+: l ↔ p.length ≤ l.length ∧ l.take p.length = p := by
  constructor
  · intro h
    refine ⟨pref_length h, ?_⟩
    obtain ⟨t, rfl⟩ := h
    exact List.take_left _ _
  · rintro ⟨h1, h2⟩
    have h3 := List.take_append_drop p.length l
    rw [h2] at h3
    exact ⟨l.drop p.length, h3⟩

theorem suff_iff_drop {p l : List Char} :
    p <:+ l ↔ p.length ≤ l.length ∧ l.drop (l.length - p.length) = p := by
  constructor
  · intro h
    obtain ⟨t, rfl⟩ := h
    have hl : (t ++ p).length - p.length = t.length := by simp [List.length_append]
    refine ⟨by simp [List.length_append], ?_⟩
    rw [hl]
    exact List.drop_left _ _
  · rintro ⟨h1, h2⟩
    have h3 := List.take_append_drop (l.length - p.length) l
    rw [h2] at h3
    exact ⟨l.take (l.length - p.length), h3⟩

theorem pref_app_cases {p A B : List Char} (h : p <+: A ++ B) :
    p <+: A ∨ (A <+: p ∧ p.drop A.length <+: B) := by
  obtain ⟨t, ht⟩ := h
  by_cases hle : p.length ≤ A.length
  · left
    have h1 : (A ++ B).take p.length = p := by
      rw [← ht]
      exact List.take_left _ _
    rw [List.take_append_of_le_length hle] at h1
    exact pref_iff_take.mpr ⟨hle, h1⟩
  · right
    have hlen : A.length ≤ p.length := by omega
    constructor
    · have h1 : (A ++ B).take A.length = A := List.take_left _ _
      rw [← ht, List.take_append_of_le_length hlen] at h1
      exact pref_iff_take.mpr ⟨hlen, h1⟩
    · have h1 : (A ++ B).drop A.length = B := List.drop_left _ _
      rw [← ht, List.drop_append_of_le_length hlen] at h1
      exact ⟨t, h1⟩

theorem infx_cons_cases {p l : List Char} {a : Char} (h : p <:+: a :: l) :
    p <+: a :: l ∨ p <:+: l := by
  obtain ⟨u, v, huv⟩ := h
  cases u with
  | nil => exact Or.inl ⟨v, by simpa using huv⟩
  | cons a' u' =>
    simp only [List.cons_append] at huv
    injection huv with h1 h2
    exact Or.inr ⟨u', v, h2⟩

theorem infx_app_cases {p A B : List Char} (h : p <:+: A ++ B) :
    p <:+: A ∨ p <:+: B ∨
      ∃ j, 0 < j ∧ j < p.length ∧ p.take j <:+ A ∧ p.drop j <+: B := by
  induction A with
  | nil =>
    rw [List.nil_append] at h
    exact Or.inr (Or.inl h)
  | cons a A ih =>
    rw [List.cons_append] at h
    rcases infx_cons_cases h with hp | hi
    · rw [← List.cons_append] at hp
      rcases pref_app_cases hp with h1 | ⟨h2, h3⟩
      · exact Or.inl (pref_infx h1)
      · by_cases hlen : p.length ≤ (a :: A).length
        · obtain ⟨t, rfl⟩ := h2
          have ht : t = [] := by
            have := hlen
            simp only [List.length_append] at this
            have h0 : t.length = 0 := by omega
            exact List.length_eq_zero.mp h0
          subst ht
          left
          simp
        · refine Or.inr (Or.inr ⟨(a :: A).length, by simp, by omega, ?_, h3⟩)
          have h4 : p.take (a :: A).length = a :: A := (pref_iff_take.mp h2).2
          rw [h4]
    · rcases ih hi with h1 | h2 | ⟨j, hj1, hj2, hj3, hj4⟩
      · exact Or.inl (infx_cons_of a h1)
      · exact Or.inr (Or.inl h2)
      · exact Or.inr (Or.inr ⟨j, hj1, hj2, suff_cons_of a hj3, hj4⟩)

/-! ### `findSplit` and `pySplit` theory -/

theorem findSplit_app {sep : List Char} :
    ∀ {s pre post : List Char}, findSplit sep s = some (pre, post) → s = pre ++ sep ++ post := by
  intro s
  induction s with
  | nil => intro pre post h; simp [findSplit] at h
  | cons a s ih =>
    intro pre post h
    by_cases hp : sep.isPrefixOf (a :: s)
    · simp only [findSplit, if_pos hp] at h
      have h' := Option.some.inj h
      have h1 : ([] : List Char) = pre := congrArg Prod.fst h'
      have h2 : (a :: s).drop sep.length = post := congrArg Prod.snd h'
      subst h1
      subst h2
      obtain ⟨t, ht⟩ :=  List.isPrefixOf_iff_prefix.mp hp
      rw [← ht]
      simp [List.drop_left]
    · simp only [findSplit, if_neg hp] at h
      cases hfs : findSplit sep s with
      | none => rw [hfs] at h; cases h
      | some pr =>
        obtain ⟨pre', post'⟩ := pr
        rw [hfs] at h
        have h' := Option.some.inj h
        have h1 : a :: pre' = pre := congrArg Prod.fst h'
        have h2 : post' = post := congrArg Prod.snd h'
        subst h1
        subst h2
        have hs := ih hfs
        rw [List.cons_append, List.cons_append]
        rw [← hs]

theorem findSplit_eq_none_iff {sep : List Char} (hsep : sep ≠ []) :
    ∀ s : List Char, findSplit sep s = none ↔ ¬ sep <:+: s := by
  intro s
  induction s with
  | nil =>
    constructor
    · intro _ hinf
      obtain ⟨u, v, huv⟩ := hinf
      rcases List.append_eq_nil.mp huv with ⟨h1, h2⟩
      rcases List.append_eq_nil.mp h1 with ⟨h3, h4⟩
      exact hsep h4
    · intro _
      rfl
  | cons a s ih =>
    by_cases hp : sep.isPrefixOf (a :: s)
    · have hinf : sep <:+: a :: s := pref_infx ( List.isPrefixOf_iff_prefix.mp hp)
      constructor
      · intro hnone
        simp only [findSplit, if_pos hp] at hnone
        exact Option.noConfusion hnone
      · intro hni
        exact absurd hinf hni
    · constructor
      · intro hnone hinf
        rcases infx_cons_cases hinf with h1 | h2
        · exact hp ( List.isPrefixOf_iff_prefix.mpr h1)
        · simp only [findSplit, if_neg hp] at hnone
          cases hfs : findSplit sep s with
          | none => exact (ih.mp hfs) h2
          | some pr =>
            obtain ⟨pre, post⟩ := pr
            rw [hfs] at hnone
            simp at hnone
      · intro hni
        simp only [findSplit, if_neg hp]
        cases hfs : findSplit sep s with
        | none => rfl
        | some pr =>
          obtain ⟨pre, post⟩ := pr
          exfalso
          have hinf : sep <:+: s := by
            by_contra hno
            have hn2 := ih.mpr hno
            rw [hfs] at hn2
            exact Option.noConfusion hn2
          exact hni (infx_cons_of a hinf)

theorem findSplit_first {sep : List Char} (hsep : sep ≠ []) :
    ∀ {s pre post : List Char}, findSplit sep s = some (pre, post) → ¬ sep <:+: pre := by
  intro s
  induction s with
  | nil => intro pre post h; simp [findSplit] at h
  | cons a s ih =>
    intro pre post h
    by_cases hp : sep.isPrefixOf (a :: s)
    · simp only [findSplit, if_pos hp] at h
      have h1 : ([] : List Char) = pre := congrArg Prod.fst (Option.some.inj h)
      subst h1
      intro hinf
      obtain ⟨u, v, huv⟩ := hinf
      rcases List.append_eq_nil.mp huv with ⟨h1, h2⟩
      rcases List.append_eq_nil.mp h1 with ⟨h3, h4⟩
      exact hsep h4
    · simp only [findSplit, if_neg hp] at h
      cases hfs : findSplit sep s with
      | none => rw [hfs] at h; exact Option.noConfusion h
      | some pr =>
        obtain ⟨pre', post'⟩ := pr
        rw [hfs] at h
        have h1 : a :: pre' = pre := congrArg Prod.fst (Option.some.inj h)
        subst h1
        intro hinf
        rcases infx_cons_cases hinf with hpf | hin
        · have hs := findSplit_app hfs
          have hpf2 : sep <+: a :: s := by
            obtain ⟨t, ht⟩ := hpf
            refine ⟨t ++ (sep ++ post'), ?_⟩
            rw [hs]
            calc sep ++ (t ++ (sep ++ post'))
                = (sep ++ t) ++ (sep ++ post') := by simp [List.append_assoc]
              _ = (a :: pre') ++ (sep ++ post') := by rw [ht]
              _ = a :: (pre' ++ sep ++ post') := by simp [List.cons_append, List.append_assoc]
          exact hp ( List.isPrefixOf_iff_prefix.mpr hpf2)
        · exact ih hfs hin

theorem findSplit_sep_app {sep : List Char} (hsep : sep ≠ []) (R : List Char) :
    findSplit sep (sep ++ R) = some ([], R) := by
  obtain ⟨c, sr, rfl⟩ : ∃ c sr, sep = c :: sr := by
    cases sep with
    | nil => exact absurd rfl hsep
    | cons c sr => exact ⟨c, sr, rfl⟩
  have hp : (c :: sr).isPrefixOf (c :: (sr ++ R)) = true :=
     List.isPrefixOf_iff_prefix.mpr ⟨R, by simp⟩
  show findSplit (c :: sr) (c :: (sr ++ R)) = some ([], R)
  simp only [findSplit]
  rw [if_pos hp]
  simp [List.length_cons, List.drop_left]

theorem pySplitGo_fuel {sep : List Char} (hsep : sep ≠ []) :
    ∀ (n : Nat) (s : List Char) (f : Nat), s.length ≤ n → s.length ≤ f →
      pySplitGo sep f s = pySplitGo sep s.length s := by
  intro n
  induction n with
  | zero =>
    intro s f h1 h2
    have hs : s = [] := List.length_eq_zero.mp (by omega)
    subst hs
    cases f with
    | zero => rfl
    | succ f => simp [pySplitGo, findSplit]
  | succ n ih =>
    intro s f h1 h2
    cases s with
    | nil =>
      cases f with
      | zero => rfl
      | succ f => simp [pySplitGo, findSplit]
    | cons a s' =>
      cases f with
      | zero => simp at h2
      | succ f' =>
        have hsep1 : 1 ≤ sep.length := by
          cases sep with
          | nil => exact absurd rfl hsep
          | cons c sr => simp
        cases hfs : findSplit sep (a :: s') with
        | none => simp [pySplitGo, List.length_cons, hfs]
        | some pr =>
          obtain ⟨pre, post⟩ := pr
          have hs := findSplit_app hfs
          have h0 := congrArg List.length hs
          simp only [List.length_append, List.length_cons] at h0
          simp only [List.length_cons] at h1 h2
          simp only [pySplitGo, List.length_cons, hfs]
          have e1 : pySplitGo sep f' post = pySplitGo sep post.length post :=
            ih post f' (by omega) (by omega)
          have e2 : pySplitGo sep s'.length post = pySplitGo sep post.length post :=
            ih post s'.length (by omega) (by omega)
          rw [e1, e2]

theorem pySplit_eq_single {sep : List Char} {s : List Char} (h : findSplit sep s = none) :
    pySplit sep s = [s] := by
  unfold pySplit
  cases hl : s.length with
  | zero => rfl
  | succ n => simp [pySplitGo, h]

theorem pySplit_eq_cons {sep : List Char} (hsep : sep ≠ []) {s pre post : List Char}
    (h : findSplit sep s = some (pre, post)) :
    pySplit sep s = pre :: pySplit sep post := by
  have hs := findSplit_app h
  have hsep1 : 1 ≤ sep.length := by
    cases sep with
    | nil => exact absurd rfl hsep
    | cons c sr => simp
  have hl := congrArg List.length hs
  simp [List.length_append] at hl
  unfold pySplit
  cases hsl : s.length with
  | zero => omega
  | succ n =>
    simp only [pySplitGo, h]
    congr 1
    exact pySplitGo_fuel hsep post.length post n (le_refl _) (by omega)

theorem pySplit_ne_nil {sep s : List Char} : pySplit sep s ≠ [] := by
  unfold pySplit
  cases s.length with
  | zero => simp [pySplitGo]
  | succ n =>
    cases hfs : findSplit sep s with
    | none => simp [pySplitGo, hfs]
    | some pr =>
      obtain ⟨pre, post⟩ := pr
      simp [pySplitGo, hfs]

theorem joinSep_pySplit {sep : List Char} (hsep : sep ≠ []) :
    ∀ s : List Char, joinSep sep (pySplit sep s) = s := by
  intro s
  generalize hn : s.length = n
  induction n using Nat.strong_induction_on generalizing s with
  | _ n ih =>
    cases hfs : findSplit sep s with
    | none => rw [pySplit_eq_single hfs]; rfl
    | some pr =>
      obtain ⟨pre, post⟩ := pr
      rw [pySplit_eq_cons hsep hfs]
      have hs := findSplit_app hfs
      have hsep1 : 1 ≤ sep.length := by
        cases sep with
        | nil => exact absurd rfl hsep
        | cons c sr => simp
      have hl := congrArg List.length hs
      simp [List.length_append] at hl
      have ihp : joinSep sep (pySplit sep post) = post :=
        ih post.length (by omega) post rfl
      cases hps : pySplit sep post with
      | nil => exact absurd hps pySplit_ne_nil
      | cons x xs =>
        rw [hps] at ihp
        show joinSep sep (pre :: x :: xs) = s
        simp only [joinSep]
        rw [ihp, hs]

theorem pySplit_sep_free {sep : List Char} (hsep : sep ≠ []) :
    ∀ (s : List Char), ∀ p ∈ pySplit sep s, ¬ sep <:+: p := by
  intro s
  generalize hn : s.length = n
  induction n using Nat.strong_induction_on generalizing s with
  | _ n ih =>
    intro p hp
    cases hfs : findSplit sep s with
    | none =>
      rw [pySplit_eq_single hfs] at hp
      rcases List.mem_singleton.mp hp with rfl
      exact (findSplit_eq_none_iff hsep p).mp hfs
    | some pr =>
      obtain ⟨pre, post⟩ := pr
      rw [pySplit_eq_cons hsep hfs] at hp
      have hs := findSplit_app hfs
      have hsep1 : 1 ≤ sep.length := by
        cases sep with
        | nil => exact absurd rfl hsep
        | cons c sr => simp
      have hl := congrArg List.length hs
      simp [List.length_append] at hl
      rcases List.mem_cons.mp hp with rfl | hmem
      · exact findSplit_first hsep hfs
      · exact ih post.length (by omega) post rfl p hmem

theorem findSplit_append_free {sep : List Char} (hsep : sep ≠ []) :
    ∀ (A B : List Char), ¬ sep <:+: A →
      (∀ j, 0 < j → j < sep.length → ¬ (sep.drop j <+: sep ++ B)) →
      findSplit sep (A ++ sep ++ B) = some (A, B) := by
  intro A
  induction A with
  | nil =>
    intro B hA hB
    simpa using findSplit_sep_app hsep B
  | cons a A ih =>
    intro B hA hB
    have hnp : ¬ sep.isPrefixOf (a :: (A ++ sep ++ B)) = true := by
      intro hp
      have hpf : sep <+: (a :: A) ++ (sep ++ B) := by
        have h0 :=  List.isPrefixOf_iff_prefix.mp hp
        simpa [List.cons_append, List.append_assoc] using h0
      rcases pref_app_cases hpf with h1 | ⟨h2, h3⟩
      · exact hA (pref_infx h1)
      · by_cases hj : (a :: A).length < sep.length
        · exact hB (a :: A).length (by simp) hj h3
        · obtain ⟨t, ht⟩ := h2
          have htl : t = [] := by
            have hl := congrArg List.length ht
            simp [List.length_append] at hl
            simp only [List.length_cons] at hj
            exact List.length_eq_zero.mp (by omega)
          subst htl
          apply hA
          have hse : sep = a :: A := by simpa using ht.symm
          rw [hse]
    have hA' : ¬ sep <:+: A := fun h => hA (infx_cons_of a h)
    have hrec := ih B hA' hB
    show findSplit sep (a :: (A ++ sep ++ B)) = some (a :: A, B)
    simp only [findSplit]
    rw [if_neg hnp, hrec]

theorem infx_pref_trans {p s l : List Char} (h1 : p <:+: s) (h2 : s <+: l) : p <:+: l := by
  obtain ⟨u, v, rfl⟩ := h1
  obtain ⟨t, rfl⟩ := h2
  exact ⟨u, v ++ t, by simp [List.append_assoc]⟩

theorem infx_suff_trans {p s l : List Char} (h1 : p <:+: s) (h2 : s <:+ l) : p <:+: l := by
  obtain ⟨u, v, rfl⟩ := h1
  obtain ⟨t, rfl⟩ := h2
  exact ⟨t ++ u, v, by simp [List.append_assoc]⟩

/-! ### Concrete facts about the `"tool:"` and `"|input:"` delimiters -/

theorem hj_tool (B : List Char) :
    ∀ j, 0 < j → j < toolSep.length → ¬ (toolSep.drop j <+: toolSep ++ B) := by
  intro j h1 h2 hp
  have h5 : toolSep.length = 5 := by decide
  rcases pref_app_cases hp with hc | ⟨hc, -⟩
  · rw [h5] at h2
    interval_cases j <;> revert hc <;> decide
  · have hlen := pref_length hc
    simp only [List.length_drop] at hlen
    omega

theorem hj_input (B : List Char) :
    ∀ j, 0 < j → j < inputSep.length → ¬ (inputSep.drop j <+: inputSep ++ B) := by
  intro j h1 h2 hp
  have h7 : inputSep.length = 7 := by decide
  rcases pref_app_cases hp with hc | ⟨hc, -⟩
  · rw [h7] at h2
    interval_cases j <;> revert hc <;> decide
  · have hlen := pref_length hc
    simp only [List.length_drop] at hlen
    omega

theorem tool_pref_input_app (Y : List Char) :
    ∀ j, 0 < j → j < toolSep.length → ¬ (toolSep.drop j <+: inputSep ++ Y) := by
  intro j h1 h2 hp
  have h5 : toolSep.length = 5 := by decide
  have h7 : inputSep.length = 7 := by decide
  rcases pref_app_cases hp with hc | ⟨hc, -⟩
  · rw [h5] at h2
    interval_cases j <;> revert hc <;> decide
  · have hlen := pref_length hc
    simp only [List.length_drop] at hlen
    omega

theorem tool_not_infx_input_app (Y : List Char) (hY : ¬ toolSep <:+: Y) :
    ¬ toolSep <:+: inputSep ++ Y := by
  intro h
  rcases infx_app_cases h with h1 | h2 | ⟨j, hj1, hj2, hj3, hj4⟩
  · revert h1; decide
  · exact hY h2
  · have h5 : toolSep.length = 5 := by decide
    rw [h5] at hj2
    interval_cases j <;> revert hj3 <;> decide

theorem tool_not_infx_mid (X Y : List Char) (hX : ¬ toolSep <:+: X) (hY : ¬ toolSep <:+: Y) :
    ¬ toolSep <:+: X ++ (inputSep ++ Y) := by
  intro h
  rcases infx_app_cases h with h1 | h2 | ⟨j, hj1, hj2, hj3, hj4⟩
  · exact hX h1
  · exact tool_not_infx_input_app Y hY h2
  · exact tool_pref_input_app Y j hj1 hj2 hj4

theorem toolSep_ne_nil : toolSep ≠ [] := by decide

theorem inputSep_ne_nil : inputSep ≠ [] := by decide

theorem hit_cache_eval {α : Type} (read : List Char → List Char → α) (X Y : List Char)
    (hX1 : ¬ toolSep <:+: X) (hX2 : ¬ inputSep <:+: X)
    (hY1 : ¬ toolSep <:+: Y) (hY2 : ¬ inputSep <:+: Y) :
    hit_cache read (toolSep ++ X ++ inputSep ++ Y) = .ok (read (pyStrip X) (pyStrip Y)) := by
  have hkey : toolSep ++ X ++ inputSep ++ Y = toolSep ++ (X ++ (inputSep ++ Y)) := by
    simp [List.append_assoc]
  have hR : ¬ toolSep <:+: X ++ (inputSep ++ Y) := tool_not_infx_mid X Y hX1 hY1
  have h1 : findSplit toolSep (toolSep ++ (X ++ (inputSep ++ Y)))
      = some ([], X ++ (inputSep ++ Y)) := findSplit_sep_app toolSep_ne_nil _
  have h2 : pySplit toolSep (toolSep ++ (X ++ (inputSep ++ Y)))
      = [] :: pySplit toolSep (X ++ (inputSep ++ Y)) := pySplit_eq_cons toolSep_ne_nil h1
  have h3 : pySplit toolSep (X ++ (inputSep ++ Y)) = [X ++ (inputSep ++ Y)] :=
    pySplit_eq_single ((findSplit_eq_none_iff toolSep_ne_nil _).mpr hR)
  have h4 : findSplit inputSep (X ++ inputSep ++ Y) = some (X, Y) :=
    findSplit_append_free inputSep_ne_nil X Y hX2 (hj_input Y)
  have h4' : findSplit inputSep (X ++ (inputSep ++ Y)) = some (X, Y) := by
    rw [← List.append_assoc]
    exact h4
  have h5 : pySplit inputSep (X ++ (inputSep ++ Y)) = X :: pySplit inputSep Y :=
    pySplit_eq_cons inputSep_ne_nil h4'
  have h6 : pySplit inputSep Y = [Y] :=
    pySplit_eq_single ((findSplit_eq_none_iff inputSep_ne_nil _).mpr hY2)
  rw [hkey]
  unfold hit_cache
  rw [h2, h3]
  simp only [pyGet, List.get?]
  rw [h5, h6]
  rfl

theorem hit_cache_ixerr {α : Type} (read : List Char → List Char → α) (key : List Char)
    (h : ¬ toolSep <:+: key ∨
      ∀ pre post, findSplit toolSep key = some (pre, post) → ¬ inputSep <:+: post) :
    hit_cache read key = .error (.indexError ("list index out of range")) := by
  cases hfs : findSplit toolSep key with
  | none =>
    have h2 : pySplit toolSep key = [key] := pySplit_eq_single hfs
    unfold hit_cache
    rw [h2]
    rfl
  | some pr =>
    obtain ⟨pre, post⟩ := pr
    have hpost : ¬ inputSep <:+: post := by
      rcases h with h | h
      · exact absurd ⟨pre, post, (findSplit_app hfs).symm⟩ h
      · exact h pre post hfs
    have h2 : pySplit toolSep key = pre :: pySplit toolSep post :=
      pySplit_eq_cons toolSep_ne_nil hfs
    cases hps : pySplit toolSep post with
    | nil => exact absurd hps pySplit_ne_nil
    | cons s1 rest =>
      have hs1 : s1 <+: post := by
        cases hfs2 : findSplit toolSep post with
        | none =>
          rw [pySplit_eq_single hfs2] at hps
          injection hps with e1 e2
          subst e1
          exact ⟨[], List.append_nil _⟩
        | some pr2 =>
          obtain ⟨pre2, post2⟩ := pr2
          rw [pySplit_eq_cons toolSep_ne_nil hfs2] at hps
          injection hps with e1 e2
          subst e1
          have hp2 := findSplit_app hfs2
          exact ⟨toolSep ++ post2, by rw [hp2]; simp [List.append_assoc]⟩
      have hns1 : ¬ inputSep <:+: s1 := fun hin => hpost (infx_pref_trans hin hs1)
      have h3 : pySplit inputSep s1 = [s1] :=
        pySplit_eq_single ((findSplit_eq_none_iff inputSep_ne_nil s1).mpr hns1)
      unfold hit_cache
      rw [h2, hps]
      simp only [pyGet, List.get?]
      rw [h3]
      rfl

/-! ### `ceilDiv`, `pyRangeUp` and `chunkList` theory -/

theorem ceilDiv_zero_left (s : Nat) : ceilDiv 0 s = 0 := by
  cases s with
  | zero => rfl
  | succ s => exact Nat.div_eq_of_lt (by omega)

theorem ceilDiv_step {n s : Nat} (hs : 0 < s) (hn : 0 < n) :
    ceilDiv n s = ceilDiv (n - s) s + 1 := by
  by_cases h : n ≤ s
  · have h1 : n - s = 0 := by omega
    rw [h1, ceilDiv_zero_left]
    unfold ceilDiv
    exact Nat.div_eq_of_lt_le (by omega) (by omega)
  · unfold ceilDiv
    have h2 : n + s - 1 = (n - s + s - 1) + s := by omega
    rw [h2, Nat.add_div_right _ hs]

theorem pyRangeGo_eq (s1 : Nat) :
    ∀ (fuel start stop : Nat), stop - start ≤ fuel →
      pyRangeGo stop s1 fuel start
        = (List.range (ceilDiv (stop - start) (s1 + 1))).map (fun k => start + k * (s1 + 1)) := by
  intro fuel
  induction fuel with
  | zero =>
    intro start stop h
    have h0 : stop - start = 0 := by omega
    rw [h0, ceilDiv_zero_left]
    rfl
  | succ fuel ih =>
    intro start stop h
    by_cases hlt : start < stop
    · have hrec := ih (start + s1 + 1) stop (by omega)
      have hpos : 0 < stop - start := by omega
      have hcd : ceilDiv (stop - start) (s1 + 1)
          = ceilDiv (stop - start - (s1 + 1)) (s1 + 1) + 1 := ceilDiv_step (by omega) hpos
      have harg : stop - (start + s1 + 1) = stop - start - (s1 + 1) := by omega
      simp only [pyRangeGo, if_pos hlt]
      rw [hrec, harg, hcd, List.range_succ_eq_map]
      simp only [List.map_cons, List.map_map]
      congr 1
      · omega
      · congr 1
        funext k
        simp only [Function.comp_apply, Nat.succ_eq_add_one]
        ring_nf
    · have h0 : stop - start = 0 := by omega
      simp only [pyRangeGo, if_neg hlt]
      rw [h0, ceilDiv_zero_left]
      rfl

theorem pyRangeUp_eq (stop s1 : Nat) :
    pyRangeUp stop s1 = (List.range (ceilDiv stop (s1 + 1))).map (fun k => k * (s1 + 1)) := by
  unfold pyRangeUp
  rw [pyRangeGo_eq s1 stop 0 stop (by omega)]
  simp

theorem chunkList_length {C O : Nat} (hO : O < C) (t : List Char) :
    (chunkList C O t).length = ceilDiv t.length (C - O) := by
  unfold chunkList
  rw [pyRangeUp_eq]
  simp only [List.length_map, List.length_range]
  congr 1
  omega

theorem chunkList_cons {C O : Nat} (hO : O < C) {t : List Char} (ht : 0 < t.length) :
    chunkList C O t = t.take C :: chunkList C O (t.drop (C - O)) := by
  have hs : C - O - 1 + 1 = C - O := by omega
  unfold chunkList
  rw [pyRangeUp_eq, pyRangeUp_eq, hs, List.length_drop]
  have hcd : ceilDiv t.length (C - O) = ceilDiv (t.length - (C - O)) (C - O) + 1 :=
    ceilDiv_step (by omega) ht
  rw [hcd, List.range_succ_eq_map]
  simp only [List.map_cons, List.map_map]
  congr 1
  · simp
  · congr 1
    funext k
    simp only [Function.comp_apply]
    rw [List.drop_drop]
    congr 1
    simp only [Nat.succ_eq_add_one]
    ring_nf

theorem chunkList_nil (C O : Nat) : chunkList C O [] = [] := rfl

theorem chunk_text_pos {C O : Nat} (hO : O < C) (t : List Char) :
    chunk_text C O t = .ok (chunkList C O t) := by
  unfold chunk_text
  rw [if_neg (by omega), if_neg (by omega)]

theorem reconstruct_cons (st : Nat) (x y : List Char) (rest : List (List Char)) :
    reconstruct st (x :: y :: rest) = x.take st ++ reconstruct st (y :: rest) := by
  unfold reconstruct
  have h1 : (x :: y :: rest).dropLast = x :: (y :: rest).dropLast := List.dropLast_cons₂ ..
  have h2 : lastD (x :: y :: rest) = lastD (y :: rest) := rfl
  rw [h1, h2, List.map_cons, List.flatten_cons, List.append_assoc]

theorem chunk_head_overlap {C O : Nat} (hO : O < C) {t : List Char}
    (h2 : C - O < t.length) :
    overlapsBy (min O ((t.drop (C - O)).take C).length) (t.take C) ((t.drop (C - O)).take C) := by
  have hlb : ((t.drop (C - O)).take C).length = min C (t.length - (C - O)) := by
    simp [List.length_take, List.length_drop]
  have hla : (t.take C).length = min C t.length := by
    simp [List.length_take]
  by_cases hC : C ≤ t.length
  · have hm : min O ((t.drop (C - O)).take C).length = O := by
      rw [hlb]; omega
    rw [hm]
    refine ⟨by rw [hla]; omega, by rw [hlb]; omega, ?_⟩
    rw [hla]
    have hminC : min C t.length = C := by omega
    rw [hminC, List.drop_take, List.take_take]
    congr 1
    omega
  · have hm : min O ((t.drop (C - O)).take C).length = t.length - (C - O) := by
      rw [hlb]; omega
    rw [hm]
    refine ⟨by rw [hla]; omega, by rw [hlb]; omega, ?_⟩
    rw [hla]
    have h1 : t.take C = t := List.take_of_length_le (by omega)
    rw [h1]
    have h2' : min C t.length - (t.length - (C - O)) = C - O := by omega
    rw [h2', List.take_take]
    have h3 : min (t.length - (C - O)) C = t.length - (C - O) := by omega
    rw [h3]
    rw [List.take_of_length_le (by simp [List.length_drop])]

theorem chunkList_chain {C O : Nat} (hO : O < C) :
    ∀ t : List Char, List.Chain' (fun a b => overlapsBy (min O b.length) a b) (chunkList C O t) := by
  intro t
  generalize hn : t.length = n
  induction n using Nat.strong_induction_on generalizing t with
  | _ n ih =>
    by_cases ht : 0 < t.length
    · rw [chunkList_cons hO ht]
      by_cases h2 : 0 < (t.drop (C - O)).length
      · have htl := chunkList_cons hO h2
        rw [htl, List.chain'_cons]
        constructor
        · exact chunk_head_overlap hO (by rw [List.length_drop] at h2; omega)
        · rw [← htl]
          exact ih (t.drop (C - O)).length (by rw [List.length_drop]; omega) (t.drop (C - O)) rfl
      · have hz : t.drop (C - O) = [] := List.length_eq_zero.mp (by omega)
        rw [hz, chunkList_nil]
        exact List.chain'_singleton _
    · have hz : t = [] := List.length_eq_zero.mp (by omega)
      subst hz
      rw [chunkList_nil]
      exact List.chain'_nil

theorem chunkList_recon {C O : Nat} (hO : O < C) :
    ∀ t : List Char, reconstruct (C - O) (chunkList C O t) = t := by
  intro t
  generalize hn : t.length = n
  induction n using Nat.strong_induction_on generalizing t with
  | _ n ih =>
    by_cases ht : 0 < t.length
    · rw [chunkList_cons hO ht]
      by_cases h2 : 0 < (t.drop (C - O)).length
      · have htl := chunkList_cons hO h2
        rw [htl, reconstruct_cons, ← htl]
        have hih : reconstruct (C - O) (chunkList C O (t.drop (C - O))) = t.drop (C - O) :=
          ih (t.drop (C - O)).length (by rw [List.length_drop]; omega) (t.drop (C - O)) rfl
        rw [hih, List.take_take]
        have hmin : min (C - O) C = C - O := by omega
        rw [hmin]
        exact List.take_append_drop _ _
      · have hz : t.drop (C - O) = [] := List.length_eq_zero.mp (by omega)
        rw [hz, chunkList_nil]
        show List.flatten ([t.take C].dropLast.map (fun c => c.take (C - O)))
            ++ lastD [t.take C] = t
        have hd : ([t.take C] : List (List Char)).dropLast = [] := rfl
        rw [hd]
        show [] ++ t.take C = t
        rw [List.nil_append]
        have hlen : t.length ≤ C := by
          rw [List.length_drop] at h2
          omega
        exact List.take_of_length_le hlen
    · have hz : t = [] := List.length_eq_zero.mp (by omega)
      subst hz
      rfl

theorem chunkList_infx {C O : Nat} (t : List Char) :
    ∀ c ∈ chunkList C O t, c <:+: t := by
  intro c hc
  unfold chunkList at hc
  rcases List.mem_map.mp hc with ⟨i, hi, rfl⟩
  have h1 : (t.drop i).take C <+: t.drop i := ⟨(t.drop i).drop C, List.take_append_drop _ _⟩
  have h2 : t.drop i <:+ t := ⟨t.take i, List.take_append_drop _ _⟩
  exact infx_suff_trans (pref_infx h1) h2

theorem convAttempts_exhausts {M : Type} (strict lenient : String → Option M) (call : Nat → String)
    (hfail : ∀ i, strict (call i) = none ∧ lenient (call i) = none) :
    ∀ (fuel i : Nat) (last : Option String), 0 < fuel →
      convAttempts strict lenient call fuel i last
        = .error ⟨"Failed to convert text into a Pydantic model.", some (call (i + fuel - 1))⟩ := by
  intro fuel
  induction fuel with
  | zero => intro i last h; omega
  | succ fuel ih =>
    intro i last h
    have h1 := (hfail i).1
    have h2 := (hfail i).2
    simp only [convAttempts, h1, h2]
    cases fuel with
    | zero => simp [convAttempts]
    | succ fuel2 =>
      rw [ih (i + 1) (some (call i)) (by omega)]
      have harg : i + 1 + (fuel2 + 1) - 1 = i + (fuel2 + 1 + 1) - 1 := by omega
      rw [harg]

/-! ### Claim theorems -/

/-- C1 (counterexample): at text `"abcd"` with `chunk_size = 3` and
`chunk_overlap = 2`, `_chunk_text` returns `["abc", "bcd", "cd", "d"]`: the
chunk count matches `ceil(4 / 1) = 4`, but the final adjacent pair
`("cd", "d")` overlaps by only one character, not by `O = 2`, so the claim
that every adjacent pair overlaps by exactly `O` characters is false. -/
theorem c1_counterexample :
    chunk_text 3 2 (("abcd").toList)
      = .ok [("abc").toList, ("bcd").toList, ("cd").toList, ("d").toList] ∧
    (([("abc").toList, ("bcd").toList, ("cd").toList, ("d").toList] : List (List Char)).length
      = ceilDiv (("abcd").toList).length (3 - 2)) ∧
    ¬ List.Chain' (overlapsBy 2)
        [("abc").toList, ("bcd").toList, ("cd").toList, ("d").toList] := by
  refine ⟨by decide, by decide, ?_⟩
  intro hch
  rw [List.chain'_cons, List.chain'_cons, List.chain'_cons] at hch
  exact absurd hch.2.2.1 (by decide)

/-- C1 (amended): for `0 < L` and `0 ≤ O < C`, `_chunk_text` returns exactly
`ceil(L / (C - O))` chunks, and every pair of adjacent chunks overlaps by
exactly `min O (length of the later chunk)` characters — which is exactly
`O` whenever the later chunk has at least `O` characters. -/
theorem c1_chunk_count_overlap (C O : Nat) (t : List Char) (hO : O < C) (_hL : 0 < t.length) :
    chunk_text C O t = .ok (chunkList C O t) ∧
    (chunkList C O t).length = ceilDiv t.length (C - O) ∧
    List.Chain' (fun a b => overlapsBy (min O b.length) a b) (chunkList C O t) :=
  ⟨chunk_text_pos hO t, chunkList_length hO t, chunkList_chain hO t⟩

/-- C1 (witness): the amended claim at `chunk_size = 3`, `chunk_overlap = 2`,
text `"abcd"`. -/
theorem c1_witness :
    chunk_text 3 2 (("abcd").toList) = .ok (chunkList 3 2 (("abcd").toList)) ∧
    (chunkList 3 2 (("abcd").toList)).length = ceilDiv (("abcd").toList).length (3 - 2) ∧
    List.Chain' (fun a b => overlapsBy (min 2 b.length) a b) (chunkList 3 2 (("abcd").toList)) :=
  c1_chunk_count_overlap 3 2 (("abcd").toList) (by decide) (by decide)

/-- C2: when the LLM does not support function calling and every completion
call returns text failing both the strict parse and the lenient fallback,
`Converter.to_pydantic` runs all `max_attempts` attempts and raises a
`ConverterError` whose `lastOutput` is the raw text of the last attempt's
completion call. -/
theorem c2_to_pydantic_exhausts {M : Type} (native : Except ConverterError M)
    (strict lenient : String → Option M) (call : Nat → String) (n : Nat)
    (hfail : ∀ i, strict (call i) = none ∧ lenient (call i) = none) (hn : 0 < n) :
    to_pydantic false native strict lenient call n
      = .error ⟨"Failed to convert text into a Pydantic model.", some (call (n - 1))⟩ := by
  unfold to_pydantic
  rw [if_neg (by simp)]
  have h := convAttempts_exhausts strict lenient call hfail n 0 none hn
  simpa using h

/-- C2 (witness): three attempts, every call fails both parses; the raised
error carries the third (last) call's raw output. -/
theorem c2_witness :
    to_pydantic false (Except.ok (0 : Nat)) (fun _ => none) (fun _ => none)
        (fun i => Nat.repr i) 3
      = .error ⟨"Failed to convert text into a Pydantic model.", some (Nat.repr (3 - 1))⟩ := by
  have h := c2_to_pydantic_exhausts (Except.ok (0 : Nat)) (fun _ => none) (fun _ => none)
    (fun i => Nat.repr i) 3 (fun i => ⟨rfl, rfl⟩) (by omega)
  exact h

/-- C3 (counterexample): with `X = " x"` and `Y = "y"` (which contain neither
delimiter), `hit_cache` strips the surrounding whitespace, so it reads the
cache at `("x", "y")` and not at `(" x", "y")`: it does not parse
`tool = X` literally. -/
theorem c3_counterexample :
    hit_cache Prod.mk (toolSep ++ [' ', 'x'] ++ inputSep ++ ['y'])
      = .ok ((['x'] : List Char), (['y'] : List Char)) ∧
    ¬ (hit_cache Prod.mk (toolSep ++ [' ', 'x'] ++ inputSep ++ ['y'])
      = .ok (([' ', 'x'] : List Char), (['y'] : List Char))) := by
  constructor
  · decide
  · decide

/-- C3 (amended): for `X`, `Y` containing neither `"tool:"` nor `"|input:"`,
`hit_cache` on `"tool:" ++ X ++ "|input:" ++ Y` parses tool and input as
`X` and `Y` stripped of leading/trailing whitespace and returns
`cache_handler.read` applied to those stripped values. -/
theorem c3_hit_cache_parses {α : Type} (read : List Char → List Char → α) (X Y : List Char)
    (hX1 : ¬ toolSep <:+: X) (hX2 : ¬ inputSep <:+: X)
    (hY1 : ¬ toolSep <:+: Y) (hY2 : ¬ inputSep <:+: Y) :
    hit_cache read (toolSep ++ X ++ inputSep ++ Y) = .ok (read (pyStrip X) (pyStrip Y)) :=
  hit_cache_eval read X Y hX1 hX2 hY1 hY2

/-- C3 (witness): the amended claim at `X = "x"`, `Y = "y"`. -/
theorem c3_witness :
    hit_cache Prod.mk (toolSep ++ ['x'] ++ inputSep ++ ['y'])
      = .ok (pyStrip ['x'], pyStrip ['y']) :=
  c3_hit_cache_parses Prod.mk ['x'] ['y'] (by decide) (by decide) (by decide) (by decide)

/-- C4 (counterexample): at `chunk_size = 2`, `chunk_overlap = 3`, text
`"ab"`, `_chunk_text` terminates and returns the empty list — it neither
loops forever (the embedding is total and models Python's `range` exactly)
nor produces any zero-length chunk; and at `chunk_overlap = chunk_size = 2`
it raises `ValueError` (from `range()` with a zero step) rather than
looping or producing zero-length chunks. -/
theorem c4_counterexample :
    chunk_text 2 3 (("ab").toList) = .ok [] ∧
    (¬ ∃ cs, chunk_text 2 3 (("ab").toList) = Except.ok cs ∧ ∃ c ∈ cs, c.length = 0) ∧
    chunk_text 2 2 (("ab").toList) = .error (.valueError ("range() arg 3 must not be zero")) := by
  refine ⟨by decide, ?_, by decide⟩
  rintro ⟨cs, hcs, c, hc, hlen⟩
  have h0 : chunk_text 2 3 (("ab").toList) = .ok [] := by decide
  rw [h0] at hcs
  have hnil : ([] : List (List Char)) = cs := Except.ok.inj hcs
  rw [← hnil] at hc
  simp at hc

/-- C4 (amended): when `chunk_overlap = chunk_size`, `_chunk_text` raises
`ValueError` (Python's `range` rejects a zero step); when
`chunk_overlap > chunk_size`, the stride is negative, the range is empty,
and `_chunk_text` returns the empty list.  In neither case does it loop
forever or produce zero-length chunks. -/
theorem c4_degenerate (C O : Nat) (t : List Char) (_h : C ≤ O) :
    (C = O → chunk_text C O t = .error (.valueError ("range() arg 3 must not be zero"))) ∧
    (C < O → chunk_text C O t = .ok []) := by
  constructor
  · intro he
    unfold chunk_text
    rw [if_pos he]
  · intro hlt
    unfold chunk_text
    rw [if_neg (by omega), if_pos hlt]

/-- C4 (witness): the amended claim at `chunk_size = 2` with
`chunk_overlap = 2` and `chunk_overlap = 3`, text `"ab"`. -/
theorem c4_witness :
    chunk_text 2 2 (("ab").toList) = .error (.valueError ("range() arg 3 must not be zero")) ∧
    chunk_text 2 3 (("ab").toList) = .ok [] :=
  ⟨(c4_degenerate 2 2 (("ab").toList) (by omega)).1 rfl,
   (c4_degenerate 2 3 (("ab").toList) (by omega)).2 (by omega)⟩

/-- C5: `_save_documents` raises `ValueError` exactly when the storage
collaborator is `None`; with a storage present it returns the result of
`storage.save(chunks)` and raises nothing. -/
theorem c5_save_documents (σ ρ : Type) (save : σ → List (List Char) → ρ)
    (chunks : List (List Char)) :
    save_documents (none : Option σ) save chunks
      = .error (.valueError ("No storage found to save documents.")) ∧
    ∀ st : σ, save_documents (some st) save chunks = .ok (save st chunks) :=
  ⟨rfl, fun _ => rfl⟩

/-- C6: `generate_model_description` renders `Optional[str]`, `List[int]`,
`Dict[str, int]` and the union `int | str | None` in their literal
documented string forms inside the braces-style schema description. -/
theorem c6_model_description :
    generate_model_description [("name", .optionalT .strT), ("age", .intT)]
      = "\x7b\n  \"name\": Optional[str],\n  \"age\": int\n\x7d" ∧
    generate_model_description [("items", .listT .intT)]
      = "\x7b\n  \"items\": List[int]\n\x7d" ∧
    generate_model_description [("attributes", .dictT .strT .intT)]
      = "\x7b\n  \"attributes\": Dict[str, int]\n\x7d" ∧
    generate_model_description [("field", .unionT [.intT, .strT, .noneT])]
      = "\x7b\n  \"field\": int | str | None\n\x7d" :=
  ⟨rfl, rfl, rfl, rfl⟩

/-- C7: `_build_prompt` first assembles the template, then substitutes the
placeholders in the order `\x7bgoal\x7d`, `\x7brole\x7d`,
`\x7bbackstory\x7d` before returning.  The first substitution replaces
every occurrence of `\x7bgoal\x7d` in the assembled template: the template
splits into `\x7bgoal\x7d`-free parts (first two conjuncts) and the result
joins those parts with the goal value before the role and backstory
substitutions run. -/
theorem c7_build_prompt_substitutes (a : PromptArgs) :
    (∀ p ∈ pySplit goalPh (assembleTemplate a), ¬ goalPh <:+: p) ∧
    joinSep goalPh (pySplit goalPh (assembleTemplate a)) = assembleTemplate a ∧
    build_prompt a = pyReplace backstoryPh a.backstory (pyReplace rolePh a.role
      (joinSep a.goal (pySplit goalPh (assembleTemplate a)))) := by
  have hg : goalPh ≠ [] := by decide
  exact ⟨pySplit_sep_free hg (assembleTemplate a), joinSep_pySplit hg (assembleTemplate a), rfl⟩

/-- C7 (witness): the substitution equation at a concrete set of prompt
inputs. -/
theorem c7_witness :
    build_prompt
        ⟨fun _ => ("Play \x7brole\x7d for \x7bgoal\x7d.").toList, ["role_playing"],
          none, none, none, ("G").toList, ("R").toList, ("B").toList⟩
      = pyReplace backstoryPh (("B").toList) (pyReplace rolePh (("R").toList)
          (joinSep (("G").toList) (pySplit goalPh (assembleTemplate
            ⟨fun _ => ("Play \x7brole\x7d for \x7bgoal\x7d.").toList, ["role_playing"],
              none, none, none, ("G").toList, ("R").toList, ("B").toList⟩)))) :=
  (c7_build_prompt_substitutes
    ⟨fun _ => ("Play \x7brole\x7d for \x7bgoal\x7d.").toList, ["role_playing"],
      none, none, none, ("G").toList, ("R").toList, ("B").toList⟩).2.2

/-- C8: for `0 ≤ O < C`, every chunk `_chunk_text` returns is a contiguous
substring of the input, and concatenating every chunk except the last
truncated to its first `C - O` characters, followed by the last chunk in
full, reconstructs the input text exactly. -/
theorem c8_chunks_cover (C O : Nat) (t : List Char) (hO : O < C) :
    chunk_text C O t = .ok (chunkList C O t) ∧
    (∀ c ∈ chunkList C O t, c <:+: t) ∧
    reconstruct (C - O) (chunkList C O t) = t :=
  ⟨chunk_text_pos hO t, chunkList_infx t, chunkList_recon hO t⟩

/-- C8 (witness): the reconstruction equation at `chunk_size = 3`,
`chunk_overlap = 1`, text `"abcde"`. -/
theorem c8_witness :
    chunk_text 3 1 (("abcde").toList) = .ok (chunkList 3 1 (("abcde").toList)) ∧
    reconstruct (3 - 1) (chunkList 3 1 (("abcde").toList)) = ("abcde").toList :=
  ⟨(c8_chunks_cover 3 1 (("abcde").toList) (by omega)).1,
   (c8_chunks_cover 3 1 (("abcde").toList) (by omega)).2.2⟩

/-- C9: when the key does not contain `"tool:"`, or the segment after the
first `"tool:"` does not contain `"|input:"`, `hit_cache` raises an
unhandled `IndexError` (from the out-of-range list indexing). -/
theorem c9_hit_cache_ixerr {α : Type} (read : List Char → List Char → α) (key : List Char)
    (h : ¬ toolSep <:+: key ∨
      ∀ pre post, findSplit toolSep key = some (pre, post) → ¬ inputSep <:+: post) :
    hit_cache read key = .error (.indexError ("list index out of range")) :=
  hit_cache_ixerr read key h

/-- C9 (witness): the key `"a"` contains no `"tool:"`, so `hit_cache`
raises `IndexError`. -/
theorem c9_witness :
    hit_cache Prod.mk (['a'] : List Char)
      = .error (.indexError ("list index out of range")) :=
  c9_hit_cache_ixerr Prod.mk ['a'] (Or.inl (by decide))

/-- C10: `convert_to_model` with no target model returns the input text
unchanged, with zero parse attempts, zero LLM calls, and no error. -/
theorem c10_convert_to_model_none {M : Type} (text : String)
    (fallback : String → ConvOut M × ConvEffects) :
    convert_to_model text none fallback = (ConvOut.text text, ⟨0, 0, false⟩) :=
  rfl
